import Mathlib

/-!
Verification of the FFmpeg redaction filters (libavfilter/af_aredact.c and
libavfilter/vf_redact.c) against their natural-language specification.

The C code is shallowly embedded: C doubles (times, blend factors) are
modelled as rationals, sample and pixel values as integers, frame planes as
functions from coordinates to values, and the mutable track array as a Lean
list held in scan order (the C array is sorted descending by start time and
iterated from the back, so scan order is ascending start).  External
collaborators that the spec places out of scope (sscanf field splitting,
colour-name resolution, the LFG random generator, float sqrt) enter as
parameters of the embedded functions.
-/

namespace Redaction

/-- Audio redaction methods (af_aredact.c, redaction_method). -/
inductive AMethod
  | redact_none
  | redact_mute
  | redact_noise
deriving DecidableEq, Repr

/-- An audio box track (af_aredact.c, BoxTrack): start/end times in seconds
and a method.  The C field `end` is called `stop` here because `end` is a
reserved word in Lean. -/
structure ATrack where
  start : ℚ
  stop : ℚ
  method : AMethod
deriving DecidableEq, Repr

/-- Result of the per-call track scan at the top of filter_samples:
the final value of the C `method` variable, the store after the in-place
deletions, the tracks that took the else branch (those participating in
method resolution), and whether the loop left via `goto finished`
(skipping the sample-mutation block). -/
structure AScan where
  method : AMethod
  tracks : List ATrack
  active : List ATrack
  finished : Bool
deriving DecidableEq, Repr

/-- The track scan of filter_samples (af_aredact.c lines 182-202), iterating
tracks in ascending start order.  `m` is the running `method` variable,
initially redact_none.  A future-starting track stops the scan via
`goto finished`; an expired track (end < now) is deleted from the store;
an active track overwrites `method`, and an active mute track stops the
scan immediately via `break`. -/
def audio_track_scan (now : ℚ) (m : AMethod) : List ATrack → AScan
  | [] => ⟨m, [], [], false⟩
  | tr :: rest =>
    if now < tr.start then ⟨m, tr :: rest, [], true⟩
    else if tr.stop < now then audio_track_scan now m rest
    else if tr.method = .redact_mute then ⟨.redact_mute, tr :: rest, [tr], false⟩
    else
      let r := audio_track_scan now tr.method rest
      ⟨r.method, tr :: r.tracks, tr :: r.active, r.finished⟩

/-- Sample formats accepted by query_formats (af_aredact.c lines 137-144). -/
inductive SFormat
  | u8
  | s16
  | s32
  | flt
  | dbl
deriving DecidableEq, Repr

/-- The value the mute loop of filter_samples writes into every sample, per
format (af_aredact.c lines 206-248): literal 0 in all five cases, including
unsigned 8-bit. -/
def mute_value : SFormat → ℤ
  | .u8 => 0
  | .s16 => 0
  | .s32 => 0
  | .flt => 0
  | .dbl => 0

/-- filter_samples (af_aredact.c lines 165-252).  The internal clock
advances by nb_samples / sample_rate, where the local nb_samples is the
per-channel sample count multiplied by the channel count (lines 169-176);
then the store is scanned, and if the scan did not leave via goto and
resolved redact_mute, every sample of the block is overwritten with the
format's mute value.  Returns the new clock, the new store, and the block. -/
def filter_samples (sample_rate : ℚ) (channels nb : ℕ) (fmt : SFormat)
    (buf : List ℤ) (time_seconds : ℚ) (tracks : List ATrack) :
    ℚ × List ATrack × List ℤ :=
  let nb_samples := nb * channels
  let t := time_seconds + (nb_samples : ℚ) / sample_rate
  let r := audio_track_scan t .redact_none tracks
  let out := if r.finished = false ∧ r.method = .redact_mute
             then buf.map (fun _ => mute_value fmt) else buf
  (t, r.tracks, out)

/-- A descriptor line for the audio filter, after the out-of-scope sscanf
step: a comment or empty line, a line whose field count was wrong
(rv != 3), or the three parsed fields with the method token kept as the
character string sscanf produced. -/
inductive ALine
  | comment
  | malformed
  | fields (start stop : ℚ) (method : List Char)

/-- ASCII lower-casing of one character (av_tolower). -/
def lcase (c : Char) : Char :=
  if 'A' ≤ c ∧ c ≤ 'Z' then Char.ofNat (c.toNat + 32) else c

/-- av_strncasecmp(s, t, n) == 0 for a literal t of length exactly n: the
first n characters of s match t case-insensitively (if s is shorter the
comparison reaches its terminator and fails, which the take models). -/
def ncaseq (s : List Char) (t : List Char) : Bool :=
  ((s.take t.length).map lcase) == t

/-- box_track_from_string (af_aredact.c lines 50-83).  Comment/empty lines
and lines with a wrong field count produce no track; otherwise a track is
always built, the parsed start and end stored with no validation of their
order, and an unknown method token falling back to redact_mute. -/
def box_track_from_string : ALine → Option ATrack
  | .comment => none
  | .malformed => none
  | .fields start stop m =>
    some { start := start, stop := stop,
           method :=
             if ncaseq m ['m','u','t','e'] then .redact_mute
             else if ncaseq m ['n','o','i','s','e'] then .redact_noise
             else if ncaseq m ['n','o','n','e'] then .redact_none
             else .redact_mute }

/-- Video redaction methods (vf_redact.c, redaction_method), with the solid
colour carrying its yuv_color bytes. -/
inductive VMethod
  | redact_solid (yC uC vC aC : ℤ)
  | redact_pixellate
  | redact_inverse_pixellate
  | redact_blur
deriving DecidableEq, Repr

/-- A video box track (vf_redact.c, BoxTrack). -/
structure VTrack where
  l : ℤ
  r : ℤ
  t : ℤ
  b : ℤ
  start : ℚ
  stop : ℚ
  method : VMethod
deriving DecidableEq, Repr

/-- A descriptor line for the video filter after the out-of-scope sscanf
step (vf_redact.c sscanf format %lf,%lf,%d,%d,%d,%d,%s). -/
inductive VLine
  | comment
  | malformed
  | fields (start stop : ℚ) (l r t b : ℤ) (method : List Char)

/-- box_track_from_string (vf_redact.c lines 123-175).  `color_of` models
the out-of-scope av_parse_color plus RGB-to-YUV conversion; it is total
because even on a failed colour parse the C code still creates the track
(logging an error and leaving the colour bytes as they were).  The parsed
start and end are stored with no validation of their order. -/
def vbox_track_from_string (color_of : List Char → ℤ × ℤ × ℤ × ℤ) :
    VLine → Option VTrack
  | .comment => none
  | .malformed => none
  | .fields start stop l r t b m =>
    some { l := l, r := r, t := t, b := b, start := start, stop := stop,
           method :=
             if ncaseq m ['p','i','x','e','l'] then .redact_pixellate
             else if ncaseq m ['i','n','v'] then .redact_inverse_pixellate
             else if ncaseq m ['b','l','u','r'] then .redact_blur
             else
               let c := color_of m
               .redact_solid c.1 c.2.1 c.2.2.1 c.2.2.2 }

/-- The pruning loop of end_frame (vf_redact.c lines 553-574), in ascending
start order: stop at the first future-starting track, delete expired
tracks, keep active ones. -/
def video_track_prune (now : ℚ) : List VTrack → List VTrack
  | [] => []
  | tr :: rest =>
    if now < tr.start then tr :: rest
    else if tr.stop < now then video_track_prune now rest
    else tr :: video_track_prune now rest

/-- The selection made by the painting loop of end_frame (vf_redact.c lines
576-585): it runs over the (already pruned) store in ascending start order
and stops at the first future-starting track. -/
def video_painted (now : ℚ) (s : List VTrack) : List VTrack :=
  s.takeWhile (fun tr => decide (tr.start ≤ now))

/-- start_frame (vf_redact.c line 271): the video filter's notion of the
current time is the presentation timestamp scaled by the link time base. -/
def start_frame_time (pts : ℤ) (time_base : ℚ) : ℚ :=
  (pts : ℚ) * time_base

example :
    (audio_track_scan 5 .redact_none
      [⟨0, 10, .redact_mute⟩, ⟨1, 2, .redact_noise⟩]).tracks
      = [⟨0, 10, .redact_mute⟩, ⟨1, 2, .redact_noise⟩] := by decide

example :
    (audio_track_scan 5 .redact_none
      [⟨0, 10, .redact_noise⟩, ⟨1, 2, .redact_noise⟩]).tracks
      = [⟨0, 10, .redact_noise⟩] := by decide

example :
    box_track_from_string (.fields 2 1 ['M','u','T','e','x']) =
      some ⟨2, 1, .redact_mute⟩ := by decide

/-- The spec's active-track predicate for audio tracks: start <= now <= end. -/
def atrack_active (now : ℚ) (tr : ATrack) : Bool :=
  decide (tr.start ≤ now ∧ now ≤ tr.stop)

/-- An audio track the scan is specified to keep: not yet expired relative to
now, or not yet reached. -/
def atrack_kept (now : ℚ) (tr : ATrack) : Bool :=
  decide (¬(tr.start ≤ now ∧ tr.stop < now))

/-- The spec's active-track predicate for video tracks. -/
def vtrack_active (now : ℚ) (tr : VTrack) : Bool :=
  decide (tr.start ≤ now ∧ now ≤ tr.stop)

/-- A video track the scan is specified to keep. -/
def vtrack_kept (now : ℚ) (tr : VTrack) : Bool :=
  decide (¬(tr.start ≤ now ∧ tr.stop < now))

lemma audio_track_scan_tracks_sublist (now : ℚ) (m : AMethod) (s : List ATrack) :
    (audio_track_scan now m s).tracks.Sublist s := by
  induction s generalizing m with
  | nil => simp [audio_track_scan]
  | cons tr rest ih =>
    by_cases h1 : now < tr.start
    · simp [audio_track_scan, h1]
    by_cases h2 : tr.stop < now
    · simp only [audio_track_scan, if_neg h1, if_pos h2]
      exact (ih m).trans (List.sublist_cons_self tr rest)
    by_cases h3 : tr.method = .redact_mute
    · simp [audio_track_scan, h1, h2, h3]
    · simp only [audio_track_scan, if_neg h1, if_neg h2, if_neg h3]
      exact List.Sublist.cons₂ tr (ih _)

lemma audio_track_scan_active_subset (now : ℚ) (m : AMethod) (s : List ATrack)
    (x : ATrack) : x ∈ (audio_track_scan now m s).active → x ∈ s := by
  induction s generalizing m with
  | nil => simp [audio_track_scan]
  | cons tr rest ih =>
    by_cases h1 : now < tr.start
    · simp [audio_track_scan, h1]
    by_cases h2 : tr.stop < now
    · simp only [audio_track_scan, if_neg h1, if_pos h2]
      intro hx
      exact List.mem_cons_of_mem _ (ih m hx)
    by_cases h3 : tr.method = .redact_mute
    · simp only [audio_track_scan, if_neg h1, if_neg h2, if_pos h3,
        List.mem_singleton]
      rintro rfl
      exact List.mem_cons_self _ _
    · simp only [audio_track_scan, if_neg h1, if_neg h2, if_neg h3,
        List.mem_cons]
      rintro (rfl | hx)
      · exact Or.inl rfl
      · exact Or.inr (ih _ hx)

lemma audio_track_scan_mute (now : ℚ) (s : List ATrack) (m : AMethod)
    (hs : s.Pairwise (fun a b => a.start ≤ b.start))
    (h : ∃ tr ∈ s, (tr.start ≤ now ∧ now ≤ tr.stop) ∧ tr.method = .redact_mute) :
    (audio_track_scan now m s).method = .redact_mute := by
  induction s generalizing m with
  | nil => simp at h
  | cons tr rest ih =>
    obtain ⟨x, hx, ⟨hx1, hx2⟩, hx3⟩ := h
    have hrel := (List.pairwise_cons.mp hs).1
    have hs' := (List.pairwise_cons.mp hs).2
    by_cases h1 : now < tr.start
    · exfalso
      rcases List.mem_cons.mp hx with rfl | hmem
      · exact absurd hx1 (not_le.mpr h1)
      · exact absurd hx1 (not_le.mpr (lt_of_lt_of_le h1 (hrel x hmem)))
    by_cases h2 : tr.stop < now
    · have hmem : x ∈ rest := by
        rcases List.mem_cons.mp hx with rfl | hmem
        · exact absurd hx2 (not_le.mpr h2)
        · exact hmem
      simp only [audio_track_scan, if_neg h1, if_pos h2]
      exact ih m hs' ⟨x, hmem, ⟨hx1, hx2⟩, hx3⟩
    by_cases h3 : tr.method = .redact_mute
    · simp [audio_track_scan, h1, h2, h3]
    · have hmem : x ∈ rest := by
        rcases List.mem_cons.mp hx with rfl | hmem
        · exact absurd hx3 h3
        · exact hmem
      simp only [audio_track_scan, if_neg h1, if_neg h2, if_neg h3]
      exact ih tr.method hs' ⟨x, hmem, ⟨hx1, hx2⟩, hx3⟩

lemma audio_track_scan_mute_not_finished (now : ℚ) (s : List ATrack)
    (m : AMethod) (hm : m ≠ .redact_mute)
    (h : (audio_track_scan now m s).method = .redact_mute) :
    (audio_track_scan now m s).finished = false := by
  induction s generalizing m with
  | nil => simp [audio_track_scan] at h; exact absurd h hm
  | cons tr rest ih =>
    by_cases h1 : now < tr.start
    · simp only [audio_track_scan, if_pos h1] at h ⊢
      exact absurd h hm
    by_cases h2 : tr.stop < now
    · simp only [audio_track_scan, if_neg h1, if_pos h2] at h ⊢
      exact ih m hm h
    by_cases h3 : tr.method = .redact_mute
    · simp [audio_track_scan, h1, h2, h3]
    · simp only [audio_track_scan, if_neg h1, if_neg h2, if_neg h3] at h ⊢
      exact ih tr.method h3 h

lemma getLast?_getD_map_cons {α β : Type} (f : α → β) (a : α) (l : List α)
    (m : β) : (((a :: l).map f).getLast?).getD m = ((l.map f).getLast?).getD (f a) := by
  simp [List.getLast?_cons]

lemma audio_track_scan_no_mute_spec (now : ℚ) (s : List ATrack) (m : AMethod)
    (hs : s.Pairwise (fun a b => a.start ≤ b.start))
    (hnm : ∀ tr ∈ s, tr.start ≤ now → now ≤ tr.stop → tr.method ≠ .redact_mute) :
    (audio_track_scan now m s).method
        = (((s.filter (atrack_active now)).map ATrack.method).getLast?).getD m
      ∧ (audio_track_scan now m s).active = s.filter (atrack_active now)
      ∧ (audio_track_scan now m s).tracks = s.filter (atrack_kept now) := by
  induction s generalizing m with
  | nil => simp [audio_track_scan]
  | cons tr rest ih =>
    have hrel := (List.pairwise_cons.mp hs).1
    have hs' := (List.pairwise_cons.mp hs).2
    have hnm' : ∀ x ∈ rest, x.start ≤ now → now ≤ x.stop → x.method ≠ .redact_mute :=
      fun x hx => hnm x (List.mem_cons_of_mem _ hx)
    by_cases h1 : now < tr.start
    · have hact : (tr :: rest).filter (atrack_active now) = [] := by
        rw [List.filter_eq_nil_iff]
        intro x hx
        simp only [atrack_active, decide_eq_true_eq, not_and]
        intro hle
        exfalso
        rcases List.mem_cons.mp hx with rfl | hmem
        · exact absurd hle (not_le.mpr h1)
        · exact absurd hle (not_le.mpr (lt_of_lt_of_le h1 (hrel x hmem)))
      have hkept : (tr :: rest).filter (atrack_kept now) = tr :: rest := by
        rw [List.filter_eq_self]
        intro x hx
        simp only [atrack_kept, decide_eq_true_eq, not_and]
        intro hle
        exfalso
        rcases List.mem_cons.mp hx with rfl | hmem
        · exact absurd hle (not_le.mpr h1)
        · exact absurd hle (not_le.mpr (lt_of_lt_of_le h1 (hrel x hmem)))
      simp [audio_track_scan, h1, hact, hkept]
    by_cases h2 : tr.stop < now
    · have hact : atrack_active now tr = false := by
        simp only [atrack_active, decide_eq_false_iff_not, not_and]
        intro _ h
        exact absurd h (not_le.mpr h2)
      have hkept : atrack_kept now tr = false := by
        simp only [atrack_kept, decide_eq_false_iff_not, not_not]
        exact ⟨le_of_not_lt h1, h2⟩
      obtain ⟨ih1, ih2, ih3⟩ := ih m hs' hnm'
      refine ⟨?_, ?_, ?_⟩ <;>
        simp [audio_track_scan, h1, h2, List.filter_cons, hact, hkept, ih1, ih2, ih3]
    by_cases h3 : tr.method = .redact_mute
    · exact absurd h3 (hnm tr (List.mem_cons_self _ _) (le_of_not_lt h1) (le_of_not_lt h2))
    · have hact : atrack_active now tr = true := by
        simp only [atrack_active, decide_eq_true_eq]
        exact ⟨le_of_not_lt h1, le_of_not_lt h2⟩
      have hkept : atrack_kept now tr = true := by
        simp only [atrack_kept, decide_eq_true_eq, not_and]
        intro _
        exact not_lt.mpr (le_of_not_lt h2)
      obtain ⟨ih1, ih2, ih3⟩ := ih tr.method hs' hnm'
      refine ⟨?_, ?_, ?_⟩
      · simp only [audio_track_scan, if_neg h1, if_neg h2, if_neg h3,
          List.filter_cons, hact, if_true, getLast?_getD_map_cons]
        exact ih1
      · simp only [audio_track_scan, if_neg h1, if_neg h2, if_neg h3,
          List.filter_cons, hact, if_true]
        rw [ih2]
      · simp only [audio_track_scan, if_neg h1, if_neg h2, if_neg h3,
          List.filter_cons, hkept, if_true]
        rw [ih3]

lemma video_track_prune_sublist (now : ℚ) (s : List VTrack) :
    (video_track_prune now s).Sublist s := by
  induction s with
  | nil => simp [video_track_prune]
  | cons tr rest ih =>
    by_cases h1 : now < tr.start
    · simp [video_track_prune, h1]
    by_cases h2 : tr.stop < now
    · simp only [video_track_prune, if_neg h1, if_pos h2]
      exact ih.trans (List.sublist_cons_self tr rest)
    · simp only [video_track_prune, if_neg h1, if_neg h2]
      exact List.Sublist.cons₂ tr ih

lemma video_painted_subset (now : ℚ) (s : List VTrack) (x : VTrack)
    (h : x ∈ video_painted now s) : x ∈ s :=
  (List.takeWhile_sublist _).subset h

lemma video_track_prune_eq (now : ℚ) (s : List VTrack)
    (hs : s.Pairwise (fun a b => a.start ≤ b.start)) :
    video_track_prune now s = s.filter (vtrack_kept now) := by
  induction s with
  | nil => simp [video_track_prune]
  | cons tr rest ih =>
    have hrel := (List.pairwise_cons.mp hs).1
    have hs' := (List.pairwise_cons.mp hs).2
    by_cases h1 : now < tr.start
    · have hkept : (tr :: rest).filter (vtrack_kept now) = tr :: rest := by
        rw [List.filter_eq_self]
        intro x hx
        simp only [vtrack_kept, decide_eq_true_eq, not_and]
        intro hle
        exfalso
        rcases List.mem_cons.mp hx with rfl | hmem
        · exact absurd hle (not_le.mpr h1)
        · exact absurd hle (not_le.mpr (lt_of_lt_of_le h1 (hrel x hmem)))
      simp [video_track_prune, h1, hkept]
    by_cases h2 : tr.stop < now
    · have hkept : vtrack_kept now tr = false := by
        simp only [vtrack_kept, decide_eq_false_iff_not, not_not]
        exact ⟨le_of_not_lt h1, h2⟩
      simp [video_track_prune, h1, h2, List.filter_cons, hkept, ih hs']
    · have hkept : vtrack_kept now tr = true := by
        simp only [vtrack_kept, decide_eq_true_eq, not_and]
        intro _
        exact not_lt.mpr (le_of_not_lt h2)
      simp [video_track_prune, h1, h2, List.filter_cons, hkept, ih hs']

lemma video_painted_prune_eq (now : ℚ) (s : List VTrack)
    (hs : s.Pairwise (fun a b => a.start ≤ b.start)) :
    video_painted now (video_track_prune now s) = s.filter (vtrack_active now) := by
  induction s with
  | nil => simp [video_track_prune, video_painted]
  | cons tr rest ih =>
    have hrel := (List.pairwise_cons.mp hs).1
    have hs' := (List.pairwise_cons.mp hs).2
    by_cases h1 : now < tr.start
    · have hact : (tr :: rest).filter (vtrack_active now) = [] := by
        rw [List.filter_eq_nil_iff]
        intro x hx
        simp only [vtrack_active, decide_eq_true_eq, not_and]
        intro hle
        exfalso
        rcases List.mem_cons.mp hx with rfl | hmem
        · exact absurd hle (not_le.mpr h1)
        · exact absurd hle (not_le.mpr (lt_of_lt_of_le h1 (hrel x hmem)))
      have hhd : ¬ tr.start ≤ now := not_le.mpr h1
      simp [video_track_prune, h1, video_painted, List.takeWhile_cons, hhd, hact]
    by_cases h2 : tr.stop < now
    · have hact : vtrack_active now tr = false := by
        simp only [vtrack_active, decide_eq_false_iff_not, not_and]
        intro _ h
        exact absurd h (not_le.mpr h2)
      simp only [video_track_prune, if_neg h1, if_pos h2, List.filter_cons, hact,
        if_false, Bool.false_eq_true]
      exact ih hs'
    · have hact : vtrack_active now tr = true := by
        simp only [vtrack_active, decide_eq_true_eq]
        exact ⟨le_of_not_lt h1, le_of_not_lt h2⟩
      have hhd : tr.start ≤ now := le_of_not_lt h1
      simp only [video_track_prune, if_neg h1, if_neg h2, List.filter_cons, hact,
        if_true, video_painted, List.takeWhile_cons, decide_eq_true_eq, hhd, if_pos]
      rw [← video_painted]
      rw [ih hs']

/-- All tracks selected across a sequence of later audio calls, each call
scanning with the store the previous call left behind. -/
def audio_selections (nows : List ℚ) (s : List ATrack) : List ATrack :=
  match nows with
  | [] => []
  | n :: ns =>
    let r := audio_track_scan n .redact_none s
    r.active ++ audio_selections ns r.tracks

/-- All tracks selected across a sequence of later video frames. -/
def video_selections (nows : List ℚ) (s : List VTrack) : List VTrack :=
  match nows with
  | [] => []
  | n :: ns =>
    let s2 := video_track_prune n s
    video_painted n s2 ++ video_selections ns s2

lemma audio_selections_not_mem (x : ATrack) (nows : List ℚ) (s : List ATrack)
    (h : x ∉ s) : x ∉ audio_selections nows s := by
  induction nows generalizing s with
  | nil => simp [audio_selections]
  | cons n ns ih =>
    simp only [audio_selections, List.mem_append]
    push_neg
    refine ⟨fun hx => h (audio_track_scan_active_subset n .redact_none s x hx), ?_⟩
    exact ih _ fun hx => h ((audio_track_scan_tracks_sublist n .redact_none s).subset hx)

lemma video_selections_not_mem (x : VTrack) (nows : List ℚ) (s : List VTrack)
    (h : x ∉ s) : x ∉ video_selections nows s := by
  induction nows generalizing s with
  | nil => simp [video_selections]
  | cons n ns ih =>
    simp only [video_selections, List.mem_append]
    push_neg
    refine ⟨fun hx =>
      h ((video_track_prune_sublist n s).subset (video_painted_subset n _ x hx)), ?_⟩
    exact ih _ fun hx => h ((video_track_prune_sublist n s).subset hx)

lemma audio_track_scan_ne_mute (now : ℚ) (s : List ATrack) (m : AMethod)
    (hm : m ≠ .redact_mute)
    (hnm : ∀ tr ∈ s, tr.start ≤ now → now ≤ tr.stop → tr.method ≠ .redact_mute) :
    (audio_track_scan now m s).method ≠ .redact_mute := by
  induction s generalizing m with
  | nil => simpa [audio_track_scan] using hm
  | cons tr rest ih =>
    have hnm' : ∀ x ∈ rest, x.start ≤ now → now ≤ x.stop → x.method ≠ .redact_mute :=
      fun x hx => hnm x (List.mem_cons_of_mem _ hx)
    by_cases h1 : now < tr.start
    · simpa [audio_track_scan, h1] using hm
    by_cases h2 : tr.stop < now
    · simp only [audio_track_scan, if_neg h1, if_pos h2]
      exact ih m hm hnm'
    by_cases h3 : tr.method = .redact_mute
    · exact absurd h3 (hnm tr (List.mem_cons_self _ _) (le_of_not_lt h1) (le_of_not_lt h2))
    · simp only [audio_track_scan, if_neg h1, if_neg h2, if_neg h3]
      exact ih tr.method h3 hnm'

/-- Time accumulated by running a sequence of audio blocks through
filter_samples; each block is a pair (per-channel sample count, channel
count) and the store is threaded from call to call. -/
def run_blocks (sample_rate : ℚ) (fmt : SFormat) (blocks : List (ℕ × ℕ))
    (t0 : ℚ) (s : List ATrack) : ℚ × List ATrack :=
  blocks.foldl (fun st blk =>
    let r := filter_samples sample_rate blk.2 blk.1 fmt [] st.1 st.2
    (r.1, r.2.1)) (t0, s)

lemma run_blocks_time (sample_rate : ℚ) (fmt : SFormat) (blocks : List (ℕ × ℕ)) :
    ∀ (t0 : ℚ) (s : List ATrack),
      (run_blocks sample_rate fmt blocks t0 s).1
        = t0 + (blocks.map (fun blk => ((blk.1 * blk.2 : ℕ) : ℚ) / sample_rate)).sum := by
  induction blocks with
  | nil => intro t0 s; simp [run_blocks]
  | cons blk bs ih =>
    intro t0 s
    have h := ih (t0 + ((blk.1 * blk.2 : ℕ) : ℚ) / sample_rate)
      (audio_track_scan (t0 + ((blk.1 * blk.2 : ℕ) : ℚ) / sample_rate)
        .redact_none s).tracks
    simp only [run_blocks, List.foldl_cons, filter_samples, List.map_cons,
      List.sum_cons] at h ⊢
    rw [h, add_assoc]

/-- C1 (corrected): the claim fails for the audio scan.  In the sorted
store [mute 0..10, noise 1..2] at now = 5 the first track is an active mute,
so the scan breaks there; the second track has endTime = 2 < 5 and start 1
<= 5 and comes before any future-starting track (there is none), yet it is
still in the store after the call, where the claim requires it removed. -/
theorem C1_counterexample :
    ([⟨0, 10, .redact_mute⟩, ⟨1, 2, .redact_noise⟩] : List ATrack).Pairwise
        (fun a b => a.start ≤ b.start)
    ∧ (⟨1, 2, .redact_noise⟩ : ATrack).start ≤ 5
    ∧ (⟨1, 2, .redact_noise⟩ : ATrack).stop < 5
    ∧ (∀ tr ∈ ([⟨0, 10, .redact_mute⟩, ⟨1, 2, .redact_noise⟩] : List ATrack),
        ¬ 5 < tr.start)
    ∧ (⟨1, 2, .redact_noise⟩ : ATrack) ∈
        (audio_track_scan 5 .redact_none
          [⟨0, 10, .redact_mute⟩, ⟨1, 2, .redact_noise⟩]).tracks := by
  refine ⟨?_, ?_, ?_, ?_, ?_⟩ <;> decide

/-- C1 (amended): for the video scan the claim holds as stated: the painting
loop selects exactly the tracks with startTime <= now <= endTime in
oldest-start order, the prune loop removes exactly the expired tracks
encountered before the first future-starting track, and a removed track is
never selected by any subsequent call even if now decreases.  For the audio
scan the same holds provided no active mute track cuts the scan short (an
active mute makes the loop break at once, leaving later tracks of the store
unexamined: neither selected nor pruned); removal permanence holds for the
audio scan unconditionally. -/
theorem C1_track_scan_amended
    (now : ℚ) (sa : List ATrack) (sv : List VTrack)
    (ha : sa.Pairwise (fun a b => a.start ≤ b.start))
    (hv : sv.Pairwise (fun a b => a.start ≤ b.start))
    (hnm : ∀ tr ∈ sa, tr.start ≤ now → now ≤ tr.stop → tr.method ≠ .redact_mute) :
    video_painted now (video_track_prune now sv) = sv.filter (vtrack_active now)
    ∧ video_track_prune now sv = sv.filter (vtrack_kept now)
    ∧ (audio_track_scan now .redact_none sa).active = sa.filter (atrack_active now)
    ∧ (audio_track_scan now .redact_none sa).tracks = sa.filter (atrack_kept now)
    ∧ (∀ tr : VTrack, tr ∉ video_track_prune now sv →
        ∀ nows : List ℚ, tr ∉ video_selections nows (video_track_prune now sv))
    ∧ (∀ tr : ATrack, tr ∉ (audio_track_scan now .redact_none sa).tracks →
        ∀ nows : List ℚ,
          tr ∉ audio_selections nows (audio_track_scan now .redact_none sa).tracks) := by
  obtain ⟨-, h2, h3⟩ := audio_track_scan_no_mute_spec now sa .redact_none ha hnm
  exact ⟨video_painted_prune_eq now sv hv, video_track_prune_eq now sv hv, h2, h3,
    fun tr h nows => video_selections_not_mem tr nows _ h,
    fun tr h nows => audio_selections_not_mem tr nows _ h⟩

/-- C1 witness: the amended theorem applied to the two-track stores
[noise 0..10, noise 1..2] (audio, no active mute at now = 5) and a
single pixellate video track. -/
theorem C1_track_scan_amended_witness :
    (([⟨0, 10, .redact_noise⟩, ⟨1, 2, .redact_noise⟩] : List ATrack).Pairwise
        (fun a b => a.start ≤ b.start)
      ∧ ([⟨0, 1, 0, 1, 0, 10, .redact_pixellate⟩] : List VTrack).Pairwise
        (fun a b => a.start ≤ b.start)
      ∧ (∀ tr ∈ ([⟨0, 10, .redact_noise⟩, ⟨1, 2, .redact_noise⟩] : List ATrack),
          tr.start ≤ 5 → 5 ≤ tr.stop → tr.method ≠ .redact_mute))
    ∧ (audio_track_scan 5 .redact_none
        [⟨0, 10, .redact_noise⟩, ⟨1, 2, .redact_noise⟩]).tracks
      = ([⟨0, 10, .redact_noise⟩, ⟨1, 2, .redact_noise⟩] : List ATrack).filter
          (atrack_kept 5) :=
  ⟨⟨by decide, by decide, by decide⟩,
    (C1_track_scan_amended 5 [⟨0, 10, .redact_noise⟩, ⟨1, 2, .redact_noise⟩]
      [⟨0, 1, 0, 1, 0, 10, .redact_pixellate⟩]
      (by decide) (by decide) (by decide)).2.2.2.1⟩

/-- C3 (confirmed): over the active tracks in oldest-start order, an active
mute track forces the resolved method to mute regardless of the others;
with no active mute the resolved method is the last active track's method
(the latest-starting, by the sort), and in that case the sample buffer is
returned byte-identical. -/
theorem C3_audio_method_resolution
    (sample_rate : ℚ) (channels nb : ℕ) (fmt : SFormat) (buf : List ℤ)
    (t0 : ℚ) (s : List ATrack)
    (hs : s.Pairwise (fun a b => a.start ≤ b.start)) :
    ((∃ tr ∈ s,
        (tr.start ≤ t0 + ((nb * channels : ℕ) : ℚ) / sample_rate
          ∧ t0 + ((nb * channels : ℕ) : ℚ) / sample_rate ≤ tr.stop)
        ∧ tr.method = .redact_mute) →
      (audio_track_scan (t0 + ((nb * channels : ℕ) : ℚ) / sample_rate)
        .redact_none s).method = .redact_mute)
    ∧ ((∀ tr ∈ s, tr.start ≤ t0 + ((nb * channels : ℕ) : ℚ) / sample_rate →
          t0 + ((nb * channels : ℕ) : ℚ) / sample_rate ≤ tr.stop →
          tr.method ≠ .redact_mute) →
      (audio_track_scan (t0 + ((nb * channels : ℕ) : ℚ) / sample_rate)
          .redact_none s).method
        = (((s.filter (atrack_active
              (t0 + ((nb * channels : ℕ) : ℚ) / sample_rate))).map
            ATrack.method).getLast?).getD .redact_none
      ∧ (filter_samples sample_rate channels nb fmt buf t0 s).2.2 = buf) := by
  constructor
  · intro h
    exact audio_track_scan_mute _ s .redact_none hs h
  · intro hnm
    refine ⟨(audio_track_scan_no_mute_spec _ s .redact_none hs hnm).1, ?_⟩
    have hne := audio_track_scan_ne_mute
      (t0 + ((nb * channels : ℕ) : ℚ) / sample_rate) s .redact_none
      (by decide) hnm
    simp only [filter_samples]
    rw [if_neg]
    rintro ⟨-, hmeth⟩
    exact hne hmeth

/-- C3 witness: a single active noise track at now = 1; the resolved method
is noise and the buffer comes back unchanged. -/
theorem C3_audio_method_resolution_witness :
    (([⟨0, 10, .redact_noise⟩] : List ATrack).Pairwise
        (fun a b => a.start ≤ b.start))
    ∧ ((∀ tr ∈ ([⟨0, 10, .redact_noise⟩] : List ATrack),
          tr.start ≤ (0 : ℚ) + ((100 * 1 : ℕ) : ℚ) / 100 →
          (0 : ℚ) + ((100 * 1 : ℕ) : ℚ) / 100 ≤ tr.stop →
          tr.method ≠ .redact_mute) →
      (audio_track_scan ((0 : ℚ) + ((100 * 1 : ℕ) : ℚ) / 100)
          .redact_none [⟨0, 10, .redact_noise⟩]).method
        = (((([⟨0, 10, .redact_noise⟩] : List ATrack).filter (atrack_active
              ((0 : ℚ) + ((100 * 1 : ℕ) : ℚ) / 100))).map
            ATrack.method).getLast?).getD .redact_none
      ∧ (filter_samples 100 1 100 .s16 [5] 0 [⟨0, 10, .redact_noise⟩]).2.2 = [5]) :=
  ⟨by decide,
    (C3_audio_method_resolution 100 1 100 .s16 [5] 0 [⟨0, 10, .redact_noise⟩]
      (by decide)).2⟩

/-- C4 counterexample: an unsigned 8-bit block under an active mute track is
zeroed to the literal value 0, not to the format's midpoint 128 the claim
requires. -/
theorem C4_counterexample :
    (filter_samples 100 1 100 .u8 [7] 0 [⟨0, 10, .redact_mute⟩]).2.2 = [0]
    ∧ mute_value .u8 = 0
    ∧ (0 : ℤ) ≠ 128 := by
  have h : (0 : ℚ) + ((100 * 1 : ℕ) : ℚ) / 100 = 1 := by norm_num
  refine ⟨?_, rfl, by decide⟩
  simp only [filter_samples, h]
  decide

/-- C4 (amended): whenever the scan resolves mute, every sample of the block
is set to the literal value 0 in every sample format — 0 for signed 16/32
bit, float and double as the claim states, but also the literal 0 (not the
midpoint 128) for unsigned 8-bit. -/
theorem C4_mute_zeroes_block_amended
    (sample_rate : ℚ) (channels nb : ℕ) (fmt : SFormat) (buf : List ℤ)
    (t0 : ℚ) (s : List ATrack)
    (hm : (audio_track_scan (t0 + ((nb * channels : ℕ) : ℚ) / sample_rate)
        .redact_none s).method = .redact_mute) :
    (filter_samples sample_rate channels nb fmt buf t0 s).2.2
      = buf.map (fun _ => 0)
    ∧ ∀ v ∈ (filter_samples sample_rate channels nb fmt buf t0 s).2.2, v = 0 := by
  have hfin := audio_track_scan_mute_not_finished
    (t0 + ((nb * channels : ℕ) : ℚ) / sample_rate) s .redact_none (by decide) hm
  have hmv : mute_value fmt = 0 := by cases fmt <;> rfl
  have h : (filter_samples sample_rate channels nb fmt buf t0 s).2.2
      = buf.map (fun _ => 0) := by
    simp only [filter_samples]
    rw [if_pos ⟨hfin, hm⟩, hmv]
  refine ⟨h, ?_⟩
  rw [h]
  simp

/-- C4 witness: the amended theorem at a concrete mute scenario. -/
theorem C4_mute_zeroes_block_amended_witness :
    ((audio_track_scan ((0 : ℚ) + ((100 * 1 : ℕ) : ℚ) / 100)
        .redact_none [⟨0, 10, .redact_mute⟩]).method = .redact_mute)
    ∧ (filter_samples 100 1 100 .u8 [7, 9] 0 [⟨0, 10, .redact_mute⟩]).2.2
      = [7, 9].map (fun _ => 0) := by
  have h : (0 : ℚ) + ((100 * 1 : ℕ) : ℚ) / 100 = 1 := by norm_num
  have hm : (audio_track_scan ((0 : ℚ) + ((100 * 1 : ℕ) : ℚ) / 100)
      .redact_none [⟨0, 10, .redact_mute⟩]).method = .redact_mute := by
    rw [h]; decide
  exact ⟨hm,
    (C4_mute_zeroes_block_amended 100 1 100 .u8 [7, 9] 0
      [⟨0, 10, .redact_mute⟩] hm).1⟩

/-- C9 counterexample: a stereo block of 100 per-channel samples at 100 Hz
has duration 1 s, but the audio clock advances by 2 s because the code
multiplies the per-channel count by the channel count before dividing. -/
theorem C9_counterexample :
    (filter_samples 100 2 100 .s16 [] 0 []).1 = 2
    ∧ ((100 : ℚ) / 100) = 1
    ∧ (2 : ℚ) ≠ 0 + 1 := by
  refine ⟨?_, by norm_num, by norm_num⟩
  simp only [filter_samples]
  norm_num

/-- C9 (amended): the audio clock advances per block by (per-channel sample
count x channel count) / sample rate — so it equals the true accumulated
block duration only for mono — and after n blocks equals the sum of those
per-block increments; the video filter instead takes the frame's
presentation time, pts times the link time base. -/
theorem C9_clock_amended
    (sample_rate : ℚ) (fmt : SFormat) (blocks : List (ℕ × ℕ)) (t0 : ℚ)
    (s : List ATrack) (channels nb : ℕ) (buf : List ℤ) (pts : ℤ) (tb : ℚ) :
    (run_blocks sample_rate fmt blocks t0 s).1
      = t0 + (blocks.map (fun blk => ((blk.1 * blk.2 : ℕ) : ℚ) / sample_rate)).sum
    ∧ (filter_samples sample_rate channels nb fmt buf t0 s).1
      = t0 + ((nb * channels : ℕ) : ℚ) / sample_rate
    ∧ start_frame_time pts tb = (pts : ℚ) * tb :=
  ⟨run_blocks_time sample_rate fmt blocks t0 s, rfl, rfl⟩

/-- C10 counterexample: the audio line "2.0,1.0,mute" parses successfully
into a track with startTime = 2 > endTime = 1; the claim requires such a
line to produce no track. -/
theorem C10_counterexample :
    box_track_from_string (.fields 2 1 ['m','u','t','e'])
      = some ⟨2, 1, .redact_mute⟩
    ∧ ¬((2 : ℚ) < 1) := by
  refine ⟨?_, ?_⟩ <;> decide

/-- C10 (amended): neither parser validates the order of the two times: any
line with the right field count yields a track carrying the parsed start and
end verbatim, even when startTime >= endTime; rejection happens only for
comments, empty lines and wrong field counts. -/
theorem C10_parse_no_duration_check_amended
    (start stop : ℚ) (m : List Char) (l r t b : ℤ)
    (color_of : List Char → ℤ × ℤ × ℤ × ℤ) :
    (∃ tr, box_track_from_string (.fields start stop m) = some tr
        ∧ tr.start = start ∧ tr.stop = stop)
    ∧ (∃ tr, vbox_track_from_string color_of (.fields start stop l r t b m)
          = some tr
        ∧ tr.start = start ∧ tr.stop = stop) :=
  ⟨⟨_, rfl, rfl, rfl⟩, ⟨_, rfl, rfl, rfl⟩⟩

/-- A YUV frame: one pixel-value function per plane (row, column to value).
Pixel values are the C unsigned chars, modelled as integers. -/
structure VFrame where
  yP : ℤ → ℤ → ℤ
  uP : ℤ → ℤ → ℤ
  vP : ℤ → ℤ → ℤ

/-- Write one value into the Y plane. -/
def wrY (f : VFrame) (y x v : ℤ) : VFrame :=
  ⟨fun a b => if a = y ∧ b = x then v else f.yP a b, f.uP, f.vP⟩

/-- Write one value into the U plane. -/
def wrU (f : VFrame) (y x v : ℤ) : VFrame :=
  ⟨f.yP, fun a b => if a = y ∧ b = x then v else f.uP a b, f.vP⟩

/-- Write one value into the V plane. -/
def wrV (f : VFrame) (y x v : ℤ) : VFrame :=
  ⟨f.yP, f.uP, fun a b => if a = y ∧ b = x then v else f.vP a b⟩

@[simp] lemma wrY_yP (f : VFrame) (y x v a b : ℤ) :
    (wrY f y x v).yP a b = if a = y ∧ b = x then v else f.yP a b := rfl

@[simp] lemma wrY_uP (f : VFrame) (y x v : ℤ) : (wrY f y x v).uP = f.uP := rfl

@[simp] lemma wrY_vP (f : VFrame) (y x v : ℤ) : (wrY f y x v).vP = f.vP := rfl

@[simp] lemma wrU_uP (f : VFrame) (y x v a b : ℤ) :
    (wrU f y x v).uP a b = if a = y ∧ b = x then v else f.uP a b := rfl

@[simp] lemma wrU_yP (f : VFrame) (y x v : ℤ) : (wrU f y x v).yP = f.yP := rfl

@[simp] lemma wrU_vP (f : VFrame) (y x v : ℤ) : (wrU f y x v).vP = f.vP := rfl

@[simp] lemma wrV_vP (f : VFrame) (y x v a b : ℤ) :
    (wrV f y x v).vP a b = if a = y ∧ b = x then v else f.vP a b := rfl

@[simp] lemma wrV_yP (f : VFrame) (y x v : ℤ) : (wrV f y x v).yP = f.yP := rfl

@[simp] lemma wrV_uP (f : VFrame) (y x v : ℤ) : (wrV f y x v).uP = f.uP := rfl

/-- The ascending list of integers from a (inclusive) to b (exclusive),
modelling a C for loop. -/
def zrange (a b : ℤ) : List ℤ :=
  (List.range (b - a).toNat).map (fun i : ℕ => a + (i : ℤ))

lemma mem_zrange {a b z : ℤ} : z ∈ zrange a b ↔ a ≤ z ∧ z < b := by
  unfold zrange
  simp only [List.mem_map, List.mem_range]
  constructor
  · rintro ⟨i, hi, rfl⟩
    omega
  · rintro ⟨h1, h2⟩
    exact ⟨(z - a).toNat, by omega, by omega⟩

lemma zrange_nodup (a b : ℤ) : (zrange a b).Nodup := by
  unfold zrange
  apply List.Nodup.map
  · intro i j hij
    simpa using hij
  · exact List.nodup_range _

/-- C arithmetic right shift by s (on the non-negative operands that occur
it is ordinary division by 2^s; on negative operands it is floor division,
which Int.fdiv provides). -/
def asr (a : ℤ) (s : ℕ) : ℤ := Int.fdiv a (2 ^ s)

/-- The alpha blend of the solid branch of obscure_one_box (vf_redact.c
lines 463-472): alpha = aC/255, output = (1-alpha)*value + alpha*colour,
computed in double precision (modelled exactly in ℚ) and truncated by the
assignment into the unsigned char plane (a floor, since the convex
combination of the non-negative operands that occur is non-negative). -/
def solidBlend (aC c v : ℤ) : ℤ :=
  ⌊(1 - (aC : ℚ) / 255) * (v : ℚ) + ((aC : ℚ) / 255) * (c : ℚ)⌋

lemma solidBlend_eq (aC c v : ℤ) :
    solidBlend aC c v = ((255 - aC) * v + aC * c) / 255 := by
  have h : (1 - (aC : ℚ) / 255) * (v : ℚ) + ((aC : ℚ) / 255) * (c : ℚ)
      = (((255 - aC) * v + aC * c : ℤ) : ℚ) / ((255 : ℕ) : ℚ) := by
    push_cast
    ring
  rw [solidBlend, h, Rat.floor_intCast_div_natCast]
  norm_num

lemma solidBlend_opaque (c v : ℤ) : solidBlend 255 c v = c := by
  rw [solidBlend_eq]
  norm_num

/-- One iteration of the inner x loop of obscure_one_box (vf_redact.c lines
462-483) at luma coordinates (y, x).  The solid branch alpha-blends all
three planes — the chroma planes once per luma pixel, at the luma
coordinates shifted right by the subsampling — and the pixellate branch
copies from the top-left pixel of the 64-aligned block containing (y, x);
the remaining method (inverse pixellate) does nothing in the loop body. -/
def obscure_pixel (hsub vsub : ℕ) (tr : VTrack) (y : ℤ) (f : VFrame) (x : ℤ) :
    VFrame :=
  match tr.method with
  | .redact_solid yC uC vC aC =>
    let f0 := wrY f y x (solidBlend aC yC (f.yP y x))
    let f1 := wrU f0 (asr y vsub) (asr x hsub)
      (solidBlend aC uC (f0.uP (asr y vsub) (asr x hsub)))
    wrV f1 (asr y vsub) (asr x hsub)
      (solidBlend aC vC (f1.vP (asr y vsub) (asr x hsub)))
  | .redact_pixellate =>
    let xq := (Int.tdiv x 64) * 64
    let yq := (Int.tdiv y 64) * 64
    let f0 := wrY f y x (f.yP yq xq)
    let f1 := wrU f0 (asr y vsub) (asr x hsub) (f0.uP (asr yq vsub) (asr xq hsub))
    wrV f1 (asr y vsub) (asr x hsub) (f1.vP (asr yq vsub) (asr xq hsub))
  | _ => f

/-- One iteration of the outer y loop of obscure_one_box for the non-blur
methods: the x loop runs from max(l, 0) up to min(l + (r - l), w)
exclusive. -/
def obscure_rows (w : ℤ) (hsub vsub : ℕ) (tr : VTrack) (f : VFrame) (y : ℤ) :
    VFrame :=
  (zrange (max tr.l 0) (min (tr.l + (tr.r - tr.l)) w)).foldl
    (obscure_pixel hsub vsub tr y) f

/-- obscure_one_box (vf_redact.c lines 432-485), as called from end_frame
with y0 = 0 and h the frame height.  The blur branch (blur_one_round
followed by copybox_mixold_alpha, embedded separately) is abstracted by the
blur_impl parameter; the other methods run the row/column loops, y from
max(t, 0) up to min(h, t + (b - t)) exclusive. -/
def obscure_one_box (w h : ℤ) (hsub vsub : ℕ)
    (blur_impl : VTrack → VFrame → VFrame) (tr : VTrack) (f : VFrame) : VFrame :=
  match tr.method with
  | .redact_blur => blur_impl tr f
  | _ =>
    (zrange (max tr.t 0) (min h (tr.t + (tr.b - tr.t)))).foldl
      (obscure_rows w hsub vsub tr) f

/-- One y iteration of copy_all (vf_redact.c lines 503-516): copy luma row y
over [0, w) and the chroma rows y >> vsub over [0, w >> hsub) from src. -/
def copy_row (w : ℤ) (hsub vsub : ℕ) (src : VFrame) (dst : VFrame) (y : ℤ) :
    VFrame :=
  let d0 := (zrange 0 w).foldl (fun acc x => wrY acc y x (src.yP y x)) dst
  let d1 := (zrange 0 (asr w hsub)).foldl
    (fun acc x => wrU acc (asr y vsub) x (src.uP (asr y vsub) x)) d0
  (zrange 0 (asr w hsub)).foldl
    (fun acc x => wrV acc (asr y vsub) x (src.vP (asr y vsub) x)) d1

/-- copy_all (vf_redact.c lines 503-516). -/
def copy_all (w h : ℤ) (hsub vsub : ℕ) (src dst : VFrame) : VFrame :=
  (zrange 0 h).foldl (copy_row w hsub vsub src) dst

/-- end_frame (vf_redact.c lines 542-601), restricted to the frame it
produces and the store it leaves: copy every input plane to the output,
prune the store at the frame's time, then paint every not-yet-future track
onto the output in ascending start order. -/
def end_frame (w h : ℤ) (hsub vsub : ℕ)
    (blur_impl : VTrack → VFrame → VFrame) (now : ℚ) (tracks : List VTrack)
    (inF outInit : VFrame) : VFrame × List VTrack :=
  let out0 := copy_all w h hsub vsub inF outInit
  let tracks2 := video_track_prune now tracks
  let out := (video_painted now tracks2).foldl
    (fun acc tr => obscure_one_box w h hsub vsub blur_impl tr acc) out0
  (out, tracks2)

lemma foldl_get_preserve {σ α : Type} (get : σ → ℤ) (step : σ → α → σ)
    (xs : List α) (h : ∀ st x, x ∈ xs → get (step st x) = get st) (st : σ) :
    get (xs.foldl step st) = get st := by
  induction xs generalizing st with
  | nil => rfl
  | cons a l ih =>
    rw [List.foldl_cons,
      ih (fun st2 x hx => h st2 x (List.mem_cons_of_mem _ hx)) (step st a)]
    exact h st a (List.mem_cons_self _ _)

lemma foldl_get_hit {σ α : Type} (get : σ → ℤ) (step : σ → α → σ)
    (xs : List α) (z : α) (F : ℤ → ℤ)
    (hmem : z ∈ xs) (hnd : xs.Nodup)
    (hhit : ∀ st, get (step st z) = F (get st))
    (hpres : ∀ st x, x ∈ xs → x ≠ z → get (step st x) = get st) (st : σ) :
    get (xs.foldl step st) = F (get st) := by
  induction xs generalizing st with
  | nil => cases hmem
  | cons a l ih =>
    rw [List.foldl_cons]
    rcases List.mem_cons.mp hmem with rfl | hz
    · have hnotin : z ∉ l := (List.nodup_cons.mp hnd).1
      rw [foldl_get_preserve get step l
        (fun st2 x hx => hpres st2 x (List.mem_cons_of_mem _ hx)
          (fun hxz => hnotin (hxz ▸ hx))) (step st z)]
      exact hhit st
    · have hne : a ≠ z := fun hh => (List.nodup_cons.mp hnd).1 (hh ▸ hz)
      rw [ih hz (List.nodup_cons.mp hnd).2
        (fun st2 x hx hxz => hpres st2 x (List.mem_cons_of_mem _ hx) hxz)
        (step st a),
        hpres st a (List.mem_cons_self _ _) hne]

lemma obscure_pixel_yP_solid {hsub vsub : ℕ} {tr : VTrack}
    {yC uC vC aC : ℤ} (hm : tr.method = .redact_solid yC uC vC aC)
    (y : ℤ) (f : VFrame) (x a b : ℤ) :
    (obscure_pixel hsub vsub tr y f x).yP a b
      = if a = y ∧ b = x then solidBlend aC yC (f.yP y x) else f.yP a b := by
  simp [obscure_pixel, hm]

/-- After the non-blur loop of obscure_one_box with a solid track, a luma
pixel inside the clamped box region holds the blend of its previous value;
each such pixel is written exactly once. -/
lemma obscure_solid_yP (w h : ℤ) (hsub vsub : ℕ)
    (blur_impl : VTrack → VFrame → VFrame) (tr : VTrack)
    (yC uC vC aC : ℤ) (hm : tr.method = .redact_solid yC uC vC aC)
    (f : VFrame) (y x : ℤ)
    (hy : max tr.t 0 ≤ y ∧ y < min h (tr.t + (tr.b - tr.t)))
    (hx : max tr.l 0 ≤ x ∧ x < min (tr.l + (tr.r - tr.l)) w) :
    (obscure_one_box w h hsub vsub blur_impl tr f).yP y x
      = solidBlend aC yC (f.yP y x) := by
  have hloop : obscure_one_box w h hsub vsub blur_impl tr f
      = (zrange (max tr.t 0) (min h (tr.t + (tr.b - tr.t)))).foldl
          (obscure_rows w hsub vsub tr) f := by
    simp [obscure_one_box, hm]
  rw [hloop]
  refine foldl_get_hit (fun st => st.yP y x) (obscure_rows w hsub vsub tr) _ y
    (solidBlend aC yC) (mem_zrange.mpr hy) (zrange_nodup _ _) ?_ ?_ f
  · intro st
    simp only [obscure_rows]
    refine foldl_get_hit (fun st2 => st2.yP y x) (obscure_pixel hsub vsub tr y) _
      x (solidBlend aC yC) (mem_zrange.mpr hx) (zrange_nodup _ _) ?_ ?_ st
    · intro st2
      simp [obscure_pixel_yP_solid hm]
    · intro st2 x2 hx2 hne
      simp only [obscure_pixel_yP_solid hm]
      simp [Ne.symm hne]
  · intro st y2 hy2 hne
    simp only [obscure_rows]
    refine foldl_get_preserve (fun st2 => st2.yP y x) _ _ ?_ st
    intro st2 x2 hx2
    simp only [obscure_pixel_yP_solid hm]
    simp [Ne.symm hne]

/-- C2 (confirmed): end_frame copies the input planes to the output and then
paints the not-yet-future tracks in ascending start order, so for a store of
two active solid tracks with distinct start times and a luma pixel inside
both clamped regions, the final output value is the one produced by the
later-starting track's transform applied to the buffer as the earlier track
left it; in particular with an opaque later track the pixel shows that
track's colour. -/
theorem C2_paint_order
    (w h : ℤ) (hsub vsub : ℕ) (blur_impl : VTrack → VFrame → VFrame)
    (now : ℚ) (A B : VTrack) (inF outInit : VFrame)
    (ycA ucA vcA aA ycB ucB vcB aB : ℤ)
    (hmA : A.method = .redact_solid ycA ucA vcA aA)
    (hmB : B.method = .redact_solid ycB ucB vcB aB)
    (hstart : A.start < B.start)
    (hA : A.start ≤ now ∧ now ≤ A.stop)
    (hB : B.start ≤ now ∧ now ≤ B.stop)
    (y x : ℤ)
    (hyA : max A.t 0 ≤ y ∧ y < min h (A.t + (A.b - A.t)))
    (hxA : max A.l 0 ≤ x ∧ x < min (A.l + (A.r - A.l)) w)
    (hyB : max B.t 0 ≤ y ∧ y < min h (B.t + (B.b - B.t)))
    (hxB : max B.l 0 ≤ x ∧ x < min (B.l + (B.r - B.l)) w) :
    (end_frame w h hsub vsub blur_impl now [A, B] inF outInit).1.yP y x
        = solidBlend aB ycB
            ((obscure_one_box w h hsub vsub blur_impl A
              (copy_all w h hsub vsub inF outInit)).yP y x)
      ∧ (obscure_one_box w h hsub vsub blur_impl A
            (copy_all w h hsub vsub inF outInit)).yP y x
          = solidBlend aA ycA ((copy_all w h hsub vsub inF outInit).yP y x)
      ∧ (aB = 255 →
          (end_frame w h hsub vsub blur_impl now [A, B] inF outInit).1.yP y x
            = ycB) := by
  have hprune : video_track_prune now [A, B] = [A, B] := by
    simp [video_track_prune, not_lt.mpr hA.1, not_lt.mpr hB.1,
      not_lt.mpr hA.2, not_lt.mpr hB.2]
  have hpaint : video_painted now [A, B] = [A, B] := by
    simp [video_painted, List.takeWhile_cons, hA.1, hB.1]
  have hef : (end_frame w h hsub vsub blur_impl now [A, B] inF outInit).1
      = obscure_one_box w h hsub vsub blur_impl B
          (obscure_one_box w h hsub vsub blur_impl A
            (copy_all w h hsub vsub inF outInit)) := by
    simp [end_frame, hprune, hpaint]
  have hBval := obscure_solid_yP w h hsub vsub blur_impl B ycB ucB vcB aB hmB
    (obscure_one_box w h hsub vsub blur_impl A
      (copy_all w h hsub vsub inF outInit)) y x hyB hxB
  have hAval := obscure_solid_yP w h hsub vsub blur_impl A ycA ucA vcA aA hmA
    (copy_all w h hsub vsub inF outInit) y x hyA hxA
  refine ⟨by rw [hef]; exact hBval, hAval, ?_⟩
  intro h255
  rw [hef, hBval, h255, solidBlend_opaque]

/-- C2 witness: two opaque solid tracks on a 4x4 luma-only frame, painted at
now = 1 with the later track starting at 1/2. -/
theorem C2_paint_order_witness :
    ((⟨0, 4, 0, 4, 0, 10, .redact_solid 50 60 70 255⟩ : VTrack).method
        = .redact_solid 50 60 70 255
      ∧ (⟨0, 4, 0, 4, 1/2, 10, .redact_solid 99 98 97 255⟩ : VTrack).method
        = .redact_solid 99 98 97 255
      ∧ (⟨0, 4, 0, 4, 0, 10, .redact_solid 50 60 70 255⟩ : VTrack).start
        < (⟨0, 4, 0, 4, 1/2, 10, .redact_solid 99 98 97 255⟩ : VTrack).start)
    ∧ ((255 : ℤ) = 255 →
        (end_frame 4 4 0 0 (fun _ g => g) 1
          [⟨0, 4, 0, 4, 0, 10, .redact_solid 50 60 70 255⟩,
           ⟨0, 4, 0, 4, 1/2, 10, .redact_solid 99 98 97 255⟩]
          ⟨fun _ _ => 0, fun _ _ => 0, fun _ _ => 0⟩
          ⟨fun _ _ => 0, fun _ _ => 0, fun _ _ => 0⟩).1.yP 1 1 = 99) :=
  ⟨⟨rfl, rfl, by norm_num⟩,
    (C2_paint_order 4 4 0 0 (fun _ g => g) 1
      ⟨0, 4, 0, 4, 0, 10, .redact_solid 50 60 70 255⟩
      ⟨0, 4, 0, 4, 1/2, 10, .redact_solid 99 98 97 255⟩
      ⟨fun _ _ => 0, fun _ _ => 0, fun _ _ => 0⟩
      ⟨fun _ _ => 0, fun _ _ => 0, fun _ _ => 0⟩
      50 60 70 255 99 98 97 255 rfl rfl (by norm_num)
      ⟨by norm_num, by norm_num⟩ ⟨by norm_num, by norm_num⟩ 1 1
      (by norm_num) (by norm_num) (by norm_num) (by norm_num)).2.2⟩

/-- C7 (code bug): on a 4:2:0 frame (hsub = vsub = 1) the solid branch of
obscure_one_box iterates luma coordinates and blends the chroma planes once
per luma pixel, so with the 2x1-luma box l=0,r=2,t=0,b=1 and alpha 128/255
the single chroma pixel (0,0) of the U plane is blended twice: starting
from value 0 with colour 255 it ends at 191, where a single application —
what the claim specifies — gives 128.  (The source itself remarks at
vf_redact.c line 467-468 that this repetition is wrong when alpha != 1.) -/
theorem C7_chroma_blend_repeated :
    (obscure_one_box 2 2 1 1 (fun _ g => g)
        ⟨0, 2, 0, 1, 0, 10, .redact_solid 16 255 77 128⟩
        ⟨fun _ _ => 0, fun _ _ => 0, fun _ _ => 0⟩).uP 0 0
      = solidBlend 128 255 (solidBlend 128 255 0)
    ∧ solidBlend 128 255 0 = 128
    ∧ solidBlend 128 255 (solidBlend 128 255 0) = 191
    ∧ (191 : ℤ) ≠ 128 := by
  have h1 : solidBlend 128 255 0 = 128 := by rw [solidBlend_eq]; decide
  have h2 : solidBlend 128 255 (solidBlend 128 255 0) = 191 := by
    rw [h1, solidBlend_eq]; decide
  refine ⟨?_, h1, h2, by decide⟩
  have e1 : obscure_one_box 2 2 1 1 (fun _ g => g)
      ⟨0, 2, 0, 1, 0, 10, .redact_solid 16 255 77 128⟩
      ⟨fun _ _ => 0, fun _ _ => 0, fun _ _ => 0⟩
      = obscure_pixel 1 1 ⟨0, 2, 0, 1, 0, 10, .redact_solid 16 255 77 128⟩ 0
          (obscure_pixel 1 1 ⟨0, 2, 0, 1, 0, 10, .redact_solid 16 255 77 128⟩ 0
            ⟨fun _ _ => 0, fun _ _ => 0, fun _ _ => 0⟩ 0) 1 := by
    have hys : zrange (max (0 : ℤ) 0) (min 2 ((0 : ℤ) + (1 - 0))) = [0] := by
      decide
    have hxs : zrange (max (0 : ℤ) 0) (min ((0 : ℤ) + (2 - 0)) 2) = [0, 1] := by
      decide
    simp only [obscure_one_box]
    rw [hys]
    show obscure_rows 2 1 1 _ _ 0 = _
    simp only [obscure_rows]
    rw [hxs]
    rfl
  rw [e1]
  have ha0 : asr 0 1 = 0 := by decide
  have ha1 : asr 1 1 = 0 := by decide
  simp [obscure_pixel, ha0, ha1]

/-- One LFG noise draw as both convolve passes use it (vf_redact.c lines
296-297 and 325-326), with the fixed noise magnitude 10: the unsigned
av_lfg_get result is reduced mod 2*10+1 and shifted into [-10, 10]. -/
def noise_of (raw : ℕ) : ℤ := ((raw % 21 : ℕ) : ℤ) - 10

/-- The clamp to the 8-bit sample range applied after the noise add
(vf_redact.c lines 298-299 and 327-328). -/
def clamp255 (v : ℤ) : ℤ := if v < 0 then 0 else if v > 255 then 255 else v

/-- State of one 1-D convolution pass.  convolve_nx (over a pixel row) and
convolve_ny (over a column addressed through the line stride) run exactly
the same algorithm, so one embedding covers both: seq is the 1-D sequence
being blurred in place, buf the rolling buffer blurbuf, sum the running
blursum. -/
structure CState where
  seq : ℤ → ℤ
  buf : List ℤ
  sum : ℤ

/-- The initial fill of blurbuf (vf_redact.c lines 315-320): entry i holds
the sequence value at position l + i - blur/2, reading position 0 when that
position is <= 0; blursum accumulates exactly the entries, i.e. their
sum. -/
def cinit (l : ℤ) (blur : ℕ) (seq : ℤ → ℤ) : CState :=
  let buf := (List.range blur).map (fun i : ℕ =>
    let pos := l + (i : ℤ) - ((blur / 2 : ℕ) : ℤ)
    if pos ≤ 0 then seq 0 else seq pos)
  ⟨seq, buf, buf.sum⟩

/-- One iteration of the main loop of convolve_nx / convolve_ny (vf_redact.c
lines 321-334 / 292-305) at the j-th written position x = l + j: compute
blursum / blur (C int division truncates toward zero, Int.tdiv), add the
noise draw and clamp (the noise magnitude 10 is positive so the branch is
always taken), store at x, then update the rolling buffer at slot j % blur:
evict its value from the sum and admit the value at position
x + (blur+1)/2, clamped to maxi - 1 at the right edge, read after the
store as in the source. -/
def cstep (blur : ℕ) (maxi : ℤ) (raw j : ℕ) (x : ℤ) (st : CState) : CState :=
  let newval := Int.tdiv st.sum (blur : ℤ)
  let newpos := x + (((blur + 1) / 2 : ℕ) : ℤ)
  let i := j % blur
  let nv := clamp255 (newval + noise_of raw)
  let seq2 : ℤ → ℤ := fun z => if z = x then nv else st.seq z
  let admitted := seq2 (if newpos < maxi then newpos else maxi - 1)
  ⟨seq2, st.buf.set i admitted, st.sum - st.buf.getD i 0 + admitted⟩

/-- The state after the first n iterations of the main convolve loop. -/
def crun (l maxi : ℤ) (blur : ℕ) (seq : ℤ → ℤ) (raws : ℕ → ℕ) : ℕ → CState
  | 0 => cinit l blur seq
  | n + 1 => cstep blur maxi (raws n) n (l + (n : ℤ))
      (crun l maxi blur seq raws n)

/-- A full 1-D convolution pass over written positions [l, r). -/
def convolve_pass (l r maxi : ℤ) (blur : ℕ) (seq : ℤ → ℤ)
    (raws : ℕ → ℕ) : CState :=
  crun l maxi blur seq raws (r - l).toNat

/-- The blur argument blur_one_round passes to convolve_nx for a plane with
subsampling shift ds (vf_redact.c lines 351 and 358-360): half the box
width (C truncating division), then (blur + (1 << ds) - 1) >> ds. -/
def xpass_blur (tr : VTrack) (ds : ℕ) : ℤ :=
  asr (Int.tdiv (tr.r - tr.l) 2 + (2 ^ ds - 1)) ds

/-- The left bound passed to convolve_nx (vf_redact.c lines 350, 358). -/
def xpass_l (tr : VTrack) (ds : ℕ) : ℤ := asr (max tr.l 0) ds

/-- The right bound passed to convolve_nx (lines 352, 358): the clamped
box right edge, ceiling-shifted. -/
def xpass_r (w : ℤ) (tr : VTrack) (ds : ℕ) : ℤ :=
  asr (min (tr.l + (tr.r - tr.l)) w + (2 ^ ds - 1)) ds

/-- The luma rows the horizontal pass visits (vf_redact.c line 353, with
y0 = 0 and h the frame height). -/
def xpass_rows (h : ℤ) (tr : VTrack) : List ℤ :=
  zrange (max tr.t 0) (min h (tr.t + (tr.b - tr.t)))

/-- The blur argument passed to convolve_ny for the vertical pass
(vf_redact.c lines 367 and 372-374). -/
def ypass_blur (tr : VTrack) (ds : ℕ) : ℤ :=
  asr (Int.tdiv (tr.b - tr.t) 2 + (2 ^ ds - 1)) ds

lemma list_sum_set (l : List ℤ) (i : ℕ) (a : ℤ) (h : i < l.length) :
    (l.set i a).sum = l.sum - l.getD i 0 + a := by
  induction l generalizing i with
  | nil => simp at h
  | cons x xs ih =>
    cases i with
    | zero => simp [List.set_cons_zero]; ring
    | succ n =>
      simp only [List.set_cons_succ, List.sum_cons, List.getD_cons_succ]
      rw [ih n (by simpa using h)]
      ring

lemma crun_buf_length (l maxi : ℤ) (blur : ℕ) (seq : ℤ → ℤ)
    (raws : ℕ → ℕ) (n : ℕ) :
    (crun l maxi blur seq raws n).buf.length = blur := by
  induction n with
  | zero => simp [crun, cinit]
  | succ n ih => simp [crun, cstep, List.length_set, ih]

lemma crun_sum_eq (l maxi : ℤ) (blur : ℕ) (hb : 0 < blur) (seq : ℤ → ℤ)
    (raws : ℕ → ℕ) (n : ℕ) :
    (crun l maxi blur seq raws n).sum = (crun l maxi blur seq raws n).buf.sum := by
  induction n with
  | zero => rfl
  | succ n ih =>
    have hi : n % blur < (crun l maxi blur seq raws n).buf.length := by
      rw [crun_buf_length]
      exact Nat.mod_lt n hb
    simp only [crun, cstep]
    rw [list_sum_set _ _ _ hi, ih]

lemma cstep_seq_ne (blur : ℕ) (maxi : ℤ) (raw j : ℕ) (x z : ℤ) (st : CState)
    (hz : z ≠ x) : (cstep blur maxi raw j x st).seq z = st.seq z := by
  simp [cstep, hz]

lemma cstep_seq_eq (blur : ℕ) (maxi : ℤ) (raw j : ℕ) (x : ℤ) (st : CState) :
    (cstep blur maxi raw j x st).seq x
      = clamp255 (Int.tdiv st.sum (blur : ℤ) + noise_of raw) := by
  simp [cstep]

lemma crun_seq_final (l maxi : ℤ) (blur : ℕ) (seq : ℤ → ℤ) (raws : ℕ → ℕ)
    (j : ℕ) (n : ℕ) (hn : j < n) :
    (crun l maxi blur seq raws n).seq (l + (j : ℤ))
      = clamp255 (Int.tdiv (crun l maxi blur seq raws j).sum (blur : ℤ)
          + noise_of (raws j)) := by
  induction n with
  | zero => cases hn
  | succ n ih =>
    rcases Nat.lt_succ_iff_lt_or_eq.mp hn with h | rfl
    · have hne : l + (j : ℤ) ≠ l + (n : ℤ) := by
        intro hc
        omega
      show (cstep blur maxi (raws n) n (l + (n : ℤ)) _).seq (l + (j : ℤ)) = _
      rw [cstep_seq_ne _ _ _ _ _ _ _ hne]
      exact ih h
    · exact cstep_seq_eq blur maxi (raws j) j (l + (j : ℤ)) _

lemma ceil_shift_spec (a : ℤ) (ds : ℕ) :
    a ≤ 2 ^ ds * asr (a + (2 ^ ds - 1)) ds
    ∧ 2 ^ ds * asr (a + (2 ^ ds - 1)) ds < a + 2 ^ ds := by
  have hb : (0 : ℤ) < 2 ^ ds := by positivity
  rw [asr, Int.fdiv_eq_ediv _ (le_of_lt hb)]
  have h1 := Int.ediv_add_emod (a + (2 ^ ds - 1)) (2 ^ ds)
  have h2 := Int.emod_nonneg (a + (2 ^ ds - 1)) (ne_of_gt hb)
  have h3 := Int.emod_lt_of_pos (a + (2 ^ ds - 1)) hb
  constructor <;> linarith

/-- C5 (code bug): a blur box of luma width 1 (l = 0, r = 1) makes
blur_one_round compute wb/2 = 0 as the horizontal kernel, pass 0 to
convolve_nx on the luma plane of an 8x8 4:4:4 frame, and still enter the
loop (the written range [0, 1) is non-empty over two visited rows), so the
C expression blursum / blur divides by zero.  The last conjunct exhibits
the division at the write site of the embedded step. -/
theorem C5_blur_division_by_zero :
    xpass_blur ⟨0, 1, 0, 2, 0, 9, .redact_blur⟩ 0 = 0
    ∧ xpass_l ⟨0, 1, 0, 2, 0, 9, .redact_blur⟩ 0
        < xpass_r 8 ⟨0, 1, 0, 2, 0, 9, .redact_blur⟩ 0
    ∧ xpass_rows 8 ⟨0, 1, 0, 2, 0, 9, .redact_blur⟩ = [0, 1]
    ∧ ∀ (maxi : ℤ) (raw j : ℕ) (x : ℤ) (st : CState),
        (cstep 0 maxi raw j x st).seq x
          = clamp255 (Int.tdiv st.sum 0 + noise_of raw) := by
  refine ⟨by decide, by decide, by decide, ?_⟩
  intro maxi raw j x st
  simpa using cstep_seq_eq 0 maxi raw j x st

/-- C6 (confirmed): in a 1-D blur pass with kernel width blur > 0, the j-th
written sample (position l + j) equals the truncated average of the current
rolling window's sum over its blur entries, plus a noise draw from the
generator lying in [-10, 10], clamped to [0, 255]; the running blursum
always equals the true sum of the window; and the kernel width passed for a
plane with subsampling shift ds is half the box width (height for the
vertical pass) divided by 2^ds with ceiling rounding, characterised as the
least multiple of 2^ds at or above the half-size. -/
theorem C6_blur_pass_moving_average
    (l r maxi : ℤ) (blur : ℕ) (seq : ℤ → ℤ) (raws : ℕ → ℕ)
    (tr : VTrack) (ds : ℕ)
    (hb : 0 < blur) (j : ℕ) (hj : l + (j : ℤ) < r) :
    (convolve_pass l r maxi blur seq raws).seq (l + (j : ℤ))
        = clamp255 (Int.tdiv ((crun l maxi blur seq raws j).buf.sum) (blur : ℤ)
            + noise_of (raws j))
    ∧ (crun l maxi blur seq raws j).buf.length = blur
    ∧ (crun l maxi blur seq raws j).sum = (crun l maxi blur seq raws j).buf.sum
    ∧ (-10 ≤ noise_of (raws j) ∧ noise_of (raws j) ≤ 10)
    ∧ (Int.tdiv (tr.r - tr.l) 2 ≤ 2 ^ ds * xpass_blur tr ds
        ∧ 2 ^ ds * xpass_blur tr ds < Int.tdiv (tr.r - tr.l) 2 + 2 ^ ds)
    ∧ (Int.tdiv (tr.b - tr.t) 2 ≤ 2 ^ ds * ypass_blur tr ds
        ∧ 2 ^ ds * ypass_blur tr ds < Int.tdiv (tr.b - tr.t) 2 + 2 ^ ds) := by
  have hjn : j < (r - l).toNat := by omega
  have hsum := crun_sum_eq l maxi blur hb seq raws j
  refine ⟨?_, crun_buf_length l maxi blur seq raws j, hsum, ?_, ?_, ?_⟩
  · rw [convolve_pass, crun_seq_final l maxi blur seq raws j _ hjn, hsum]
  · unfold noise_of
    have h1 := Nat.mod_lt (raws j) (show 0 < 21 by norm_num)
    omega
  · exact ceil_shift_spec (Int.tdiv (tr.r - tr.l) 2) ds
  · exact ceil_shift_spec (Int.tdiv (tr.b - tr.t) 2) ds

/-- C6 witness: a pass with kernel 1 over a single position. -/
theorem C6_blur_pass_moving_average_witness :
    (0 < 1 ∧ (0 : ℤ) + ((0 : ℕ) : ℤ) < 1)
    ∧ (convolve_pass 0 1 5 1 (fun _ => 3) (fun _ => 0)).seq (0 + ((0 : ℕ) : ℤ))
      = clamp255 (Int.tdiv ((crun 0 5 1 (fun _ => 3) (fun _ => 0) 0).buf.sum) 1
          + noise_of 0) :=
  ⟨⟨by decide, by norm_num⟩,
    (C6_blur_pass_moving_average 0 1 5 1 (fun _ => 3) (fun _ => 0)
      ⟨0, 1, 0, 1, 0, 1, .redact_blur⟩ 0 (by decide) 0 (by norm_num)).1⟩

/-- Plane access by index, matching the plane loop of copybox_mixold_alpha
(0 = Y, 1 = U, 2 = V). -/
def pGet (f : VFrame) (plane : ℕ) : ℤ → ℤ → ℤ :=
  if plane = 0 then f.yP else if plane = 1 then f.uP else f.vP

/-- Plane write by index. -/
def pSet (f : VFrame) (plane : ℕ) (y x v : ℤ) : VFrame :=
  if plane = 0 then wrY f y x v else if plane = 1 then wrU f y x v
  else wrV f y x v

/-- The per-pixel mix ratio drawn for every visited pixel of
copybox_mixold_alpha (vf_redact.c line 414): ((av_lfg_get % 20) + 10) / 40. -/
def mixlast_of (raw : ℕ) : ℚ := ((raw % 20 + 10 : ℕ) : ℚ) / 40

/-- One x iteration of copybox_mixold_alpha (vf_redact.c lines 409-426) on
one plane, at plane-resolution column x of plane row ysub.  The radial
falloff alphax = 1 - sqrt(xnorm^2 + ynorm^2) is computed with the float
sqrt abstracted by the sqrtq parameter and the double arithmetic modelled
exactly in ℚ; a noise draw is consumed for every pixel before the branch.
When alphax < 0 the source pixel is restored; otherwise alphax is
saturated at the 0.2 boundary and the output is the alpha mix of the
source, the current (blurred) value and the previous frame's value,
floored by the store into the unsigned char plane. -/
def cb_xstep (src last : VFrame) (tr : VTrack) (sqrtq : ℚ → ℚ)
    (raws : ℕ → ℕ) (vsub thishsub : ℕ) (plane : ℕ) (y : ℤ)
    (st : VFrame × ℕ) (x : ℤ) : VFrame × ℕ :=
  let ysub : ℤ := if plane = 0 then y else asr y vsub
  let ynorm : ℚ := ((y * 2 - (tr.b + tr.t) : ℤ) : ℚ) / ((tr.b - tr.t : ℤ) : ℚ)
  let xnorm : ℚ := ((x * 2 ^ thishsub * 2 - (tr.l + tr.r) : ℤ) : ℚ)
      / ((tr.r - tr.l : ℤ) : ℚ)
  let mixlast : ℚ := mixlast_of (raws st.2)
  let alphax : ℚ := 1 - sqrtq (xnorm * xnorm + ynorm * ynorm)
  if alphax < 0 then
    (pSet st.1 plane ysub x (pGet src plane ysub x), st.2 + 1)
  else
    let alphax2 : ℚ := if alphax > 1 / 5 then 1 else alphax / (1 / 5)
    let v : ℤ := ⌊(1 - alphax2) * ((pGet src plane ysub x : ℤ) : ℚ)
        + alphax2 * ((1 - mixlast) * ((pGet st.1 plane ysub x : ℤ) : ℚ)
            + mixlast * ((pGet last plane ysub x : ℤ) : ℚ))⌋
    (pSet st.1 plane ysub x v, st.2 + 1)

/-- One y iteration of copybox_mixold_alpha (vf_redact.c lines 393-427):
planes 0, 1, 2 in order, each scanning x from (max(l,0) >> thishsub) to
(min(r, w) >> thishsub) exclusive, with thishsub = 0 on luma and hsub on
chroma. -/
def cb_row (w : ℤ) (hsub vsub : ℕ) (src last : VFrame) (tr : VTrack)
    (sqrtq : ℚ → ℚ) (raws : ℕ → ℕ) (st : VFrame × ℕ) (y : ℤ) : VFrame × ℕ :=
  ([0, 1, 2] : List ℕ).foldl (fun acc plane =>
    let thishsub := if plane = 0 then 0 else hsub
    (zrange (asr (max tr.l 0) thishsub) (asr (min tr.r w) thishsub)).foldl
      (cb_xstep src last tr sqrtq raws vsub thishsub plane y) acc) st

/-- copybox_mixold_alpha (vf_redact.c lines 381-429): y from max(t, 0) to
min(h, b) exclusive, then the plane and x loops.  src is the filter's input
frame, pic the output frame as blur_one_round left it, last the previous
output frame. -/
def copybox_mixold_alpha (w h : ℤ) (hsub vsub : ℕ) (src pic last : VFrame)
    (tr : VTrack) (sqrtq : ℚ → ℚ) (raws : ℕ → ℕ) : VFrame :=
  ((zrange (max tr.t 0) (min h tr.b)).foldl
    (cb_row w hsub vsub src last tr sqrtq raws) (pic, 0)).1

/-- The blur branch of obscure_one_box (vf_redact.c lines 444-453): after
the blur rounds (blurred is the output frame as blur_one_round left it),
run the temporal blend with the previous-frame argument
((lastref == NULL) ? source : lastref). -/
def obscure_blur_branch (w h : ℤ) (hsub vsub : ℕ) (src blurred : VFrame)
    (lastref : Option VFrame) (tr : VTrack) (sqrtq : ℚ → ℚ)
    (raws : ℕ → ℕ) : VFrame :=
  copybox_mixold_alpha w h hsub vsub src blurred (lastref.getD src) tr sqrtq
    raws

/-- The radial falloff cb_xstep computes on the luma plane at pixel (y, x)
(vf_redact.c lines 412-415, with thishsub = 0). -/
def falloff0 (tr : VTrack) (sqrtq : ℚ → ℚ) (y x : ℤ) : ℚ :=
  1 - sqrtq
    ((((x * 2 ^ (0 : ℕ) * 2 - (tr.l + tr.r) : ℤ) : ℚ) / ((tr.r - tr.l : ℤ) : ℚ))
        * (((x * 2 ^ (0 : ℕ) * 2 - (tr.l + tr.r) : ℤ) : ℚ)
            / ((tr.r - tr.l : ℤ) : ℚ))
      + (((y * 2 - (tr.b + tr.t) : ℤ) : ℚ) / ((tr.b - tr.t : ℤ) : ℚ))
        * (((y * 2 - (tr.b + tr.t) : ℤ) : ℚ) / ((tr.b - tr.t : ℤ) : ℚ)))

lemma pSet_yP_ne0 {plane : ℕ} (hp : plane ≠ 0) (f : VFrame) (y x v : ℤ) :
    (pSet f plane y x v).yP = f.yP := by
  unfold pSet
  rw [if_neg hp]
  split <;> rfl

lemma cb_xstep_yP_ne0 {plane : ℕ} (hp : plane ≠ 0) (src last : VFrame)
    (tr : VTrack) (sqrtq : ℚ → ℚ) (raws : ℕ → ℕ) (vsub thishsub : ℕ)
    (y : ℤ) (st : VFrame × ℕ) (x : ℤ) :
    (cb_xstep src last tr sqrtq raws vsub thishsub plane y st x).1.yP
      = st.1.yP := by
  simp only [cb_xstep]
  split <;> simp [pSet_yP_ne0 hp]

lemma cb_xstep_yP_zero (src last : VFrame) (tr : VTrack) (sqrtq : ℚ → ℚ)
    (raws : ℕ → ℕ) (vsub thishsub : ℕ) (y : ℤ) (st : VFrame × ℕ)
    (x a b : ℤ) (h : ¬(a = y ∧ b = x)) :
    (cb_xstep src last tr sqrtq raws vsub thishsub 0 y st x).1.yP a b
      = st.1.yP a b := by
  simp only [cb_xstep]
  split <;> simp [pSet, wrY, h]

lemma cb_xstep_yP_zero_hit (src last : VFrame) (tr : VTrack)
    (sqrtq : ℚ → ℚ) (raws : ℕ → ℕ) (vsub : ℕ) (y : ℤ) (st : VFrame × ℕ)
    (x : ℤ) (hneg : falloff0 tr sqrtq y x < 0) :
    (cb_xstep src last tr sqrtq raws vsub 0 0 y st x).1.yP y x
      = src.yP y x := by
  unfold falloff0 at hneg
  simp only [cb_xstep]
  rw [if_pos hneg]
  simp [pSet, pGet, wrY]

lemma cb_plane_fold_yP_ne0 {plane : ℕ} (hp : plane ≠ 0) (src last : VFrame)
    (tr : VTrack) (sqrtq : ℚ → ℚ) (raws : ℕ → ℕ) (vsub thishsub : ℕ)
    (y : ℤ) (xs : List ℤ) (st : VFrame × ℕ) :
    ((xs.foldl (cb_xstep src last tr sqrtq raws vsub thishsub plane y)
      st).1.yP) = st.1.yP := by
  induction xs generalizing st with
  | nil => rfl
  | cons a l ih =>
    rw [List.foldl_cons, ih, cb_xstep_yP_ne0 hp]

lemma cb_plane0_fold_yP_hit (src last : VFrame) (tr : VTrack)
    (sqrtq : ℚ → ℚ) (raws : ℕ → ℕ) (vsub : ℕ) (y x : ℤ) (xs : List ℤ)
    (hmem : x ∈ xs) (hnd : xs.Nodup) (hneg : falloff0 tr sqrtq y x < 0)
    (st : VFrame × ℕ) :
    ((xs.foldl (cb_xstep src last tr sqrtq raws vsub 0 0 y) st).1.yP y x)
      = src.yP y x := by
  refine foldl_get_hit (fun st2 => st2.1.yP y x) _ xs x (fun _ => src.yP y x)
    hmem hnd ?_ ?_ st
  · intro st2
    exact cb_xstep_yP_zero_hit src last tr sqrtq raws vsub y st2 x hneg
  · intro st2 x2 hx2 hne
    refine cb_xstep_yP_zero src last tr sqrtq raws vsub 0 y st2 x2 y x ?_
    rintro ⟨-, rfl⟩
    exact hne rfl

lemma cb_plane0_fold_yP_ne_row (src last : VFrame) (tr : VTrack)
    (sqrtq : ℚ → ℚ) (raws : ℕ → ℕ) (vsub : ℕ) (y a : ℤ) (ha : a ≠ y)
    (b : ℤ) (xs : List ℤ) (st : VFrame × ℕ) :
    ((xs.foldl (cb_xstep src last tr sqrtq raws vsub 0 0 y) st).1.yP a b)
      = st.1.yP a b := by
  refine foldl_get_preserve (fun st2 => st2.1.yP a b) _ xs ?_ st
  intro st2 x2 hx2
  refine cb_xstep_yP_zero src last tr sqrtq raws vsub 0 y st2 x2 a b ?_
  rintro ⟨rfl, -⟩
  exact ha rfl

lemma cb_row_yP_hit (w : ℤ) (hsub vsub : ℕ) (src last : VFrame)
    (tr : VTrack) (sqrtq : ℚ → ℚ) (raws : ℕ → ℕ) (y x : ℤ)
    (hmem : x ∈ zrange (asr (max tr.l 0) 0) (asr (min tr.r w) 0))
    (hneg : falloff0 tr sqrtq y x < 0) (st : VFrame × ℕ) :
    (cb_row w hsub vsub src last tr sqrtq raws st y).1.yP y x
      = src.yP y x := by
  simp only [cb_row, List.foldl_cons, List.foldl_nil]
  rw [cb_plane_fold_yP_ne0 (by norm_num), cb_plane_fold_yP_ne0 (by norm_num)]
  simpa using cb_plane0_fold_yP_hit src last tr sqrtq raws vsub y x _
    (by simpa using hmem) (zrange_nodup _ _) hneg st

lemma cb_row_yP_ne_row (w : ℤ) (hsub vsub : ℕ) (src last : VFrame)
    (tr : VTrack) (sqrtq : ℚ → ℚ) (raws : ℕ → ℕ) (y a : ℤ) (ha : a ≠ y)
    (b : ℤ) (st : VFrame × ℕ) :
    (cb_row w hsub vsub src last tr sqrtq raws st y).1.yP a b
      = st.1.yP a b := by
  simp only [cb_row, List.foldl_cons, List.foldl_nil]
  rw [cb_plane_fold_yP_ne0 (by norm_num), cb_plane_fold_yP_ne0 (by norm_num)]
  simpa using cb_plane0_fold_yP_ne_row src last tr sqrtq raws vsub y a ha b _ st

lemma asr_zero (a : ℤ) : asr a 0 = a := by
  simp [asr, pow_zero, Int.fdiv_one]

lemma copybox_yP_restore (w h : ℤ) (hsub vsub : ℕ) (src pic last : VFrame)
    (tr : VTrack) (sqrtq : ℚ → ℚ) (raws : ℕ → ℕ) (y x : ℤ)
    (hy : max tr.t 0 ≤ y ∧ y < min h tr.b)
    (hx : max tr.l 0 ≤ x ∧ x < min tr.r w)
    (hneg : falloff0 tr sqrtq y x < 0) :
    (copybox_mixold_alpha w h hsub vsub src pic last tr sqrtq raws).yP y x
      = src.yP y x := by
  unfold copybox_mixold_alpha
  refine foldl_get_hit (fun st => st.1.yP y x) _ _ y (fun _ => src.yP y x)
    (mem_zrange.mpr hy) (zrange_nodup _ _) ?_ ?_ (pic, 0)
  · intro st
    refine cb_row_yP_hit w hsub vsub src last tr sqrtq raws y x ?_ hneg st
    rw [asr_zero, asr_zero]
    exact mem_zrange.mpr hx
  · intro st y2 hy2 hne
    exact cb_row_yP_ne_row w hsub vsub src last tr sqrtq raws y2 y
      (Ne.symm hne) x st

/-- C8 (confirmed): in the temporal blend after blurring a box, every luma
pixel of the clamped region whose radial falloff 1 - sqrt(xnorm^2+ynorm^2)
is negative is set back to the original input pixel value (for any sqrt
function, so in particular the float sqrt); and on the first frame of the
stream, when lastref is NULL, the blur branch passes the current input
frame as the previous-frame term of the mix. -/
theorem C8_temporal_blend_restore
    (w h : ℤ) (hsub vsub : ℕ) (src pic last : VFrame) (tr : VTrack)
    (sqrtq : ℚ → ℚ) (raws : ℕ → ℕ) (y x : ℤ)
    (hy : max tr.t 0 ≤ y ∧ y < min h tr.b)
    (hx : max tr.l 0 ≤ x ∧ x < min tr.r w)
    (hneg : falloff0 tr sqrtq y x < 0) :
    (copybox_mixold_alpha w h hsub vsub src pic last tr sqrtq raws).yP y x
        = src.yP y x
    ∧ ∀ blurred : VFrame,
        obscure_blur_branch w h hsub vsub src blurred none tr sqrtq raws
          = copybox_mixold_alpha w h hsub vsub src blurred src tr sqrtq raws :=
  ⟨copybox_yP_restore w h hsub vsub src pic last tr sqrtq raws y x hy hx hneg,
    fun _ => rfl⟩

/-- C8 witness: the box corner (0,0) of a 2x2 box on a 2x2 frame lies
outside the inscribed ellipse (xnorm = ynorm = -1, falloff = -1 with the
identity in place of sqrt), so the output pixel equals the input pixel. -/
theorem C8_temporal_blend_restore_witness :
    ((max (0 : ℤ) 0 ≤ 0 ∧ (0 : ℤ) < min 2 2)
      ∧ falloff0 ⟨0, 2, 0, 2, 0, 1, .redact_blur⟩ (fun q => q) 0 0 < 0)
    ∧ (copybox_mixold_alpha 2 2 0 0
        ⟨fun _ _ => 7, fun _ _ => 7, fun _ _ => 7⟩
        ⟨fun _ _ => 0, fun _ _ => 0, fun _ _ => 0⟩
        ⟨fun _ _ => 0, fun _ _ => 0, fun _ _ => 0⟩
        ⟨0, 2, 0, 2, 0, 1, .redact_blur⟩ (fun q => q) (fun _ => 0)).yP 0 0
      = (⟨fun _ _ => 7, fun _ _ => 7, fun _ _ => 7⟩ : VFrame).yP 0 0 :=
  ⟨⟨⟨by norm_num, by norm_num⟩, by norm_num [falloff0]⟩,
    (C8_temporal_blend_restore 2 2 0 0
      ⟨fun _ _ => 7, fun _ _ => 7, fun _ _ => 7⟩
      ⟨fun _ _ => 0, fun _ _ => 0, fun _ _ => 0⟩
      ⟨fun _ _ => 0, fun _ _ => 0, fun _ _ => 0⟩
      ⟨0, 2, 0, 2, 0, 1, .redact_blur⟩ (fun q => q) (fun _ => 0) 0 0
      ⟨by norm_num, by norm_num⟩ ⟨by norm_num, by norm_num⟩
      (by norm_num [falloff0])).1⟩

end Redaction
